import Mathlib

/-!
# Verification of rust-dismem: a discrete-event cluster-scheduler simulator

The repository visible under `src/` contains the driver `main.rs`; the
scheduler, registry, node, resource, job and job-factory modules are declared
there (`mod scheduler;` etc.) but their sources are not part of the tree.
We embed the driver faithfully from `main.rs` and model the missing modules
from the specification, marking each such definition `Modelled from the spec:`.
Machine integers become `Nat` (all quantities involved are non-negative
counters and the arithmetic in play is saturating, per the spec).
-/

namespace Dismem

/-- Modelled from the spec: `resource.rs` is not under `src/`.  A
multi-dimensional capacity bundle `(cores, memory)` of non-negative integers
with saturating arithmetic. -/
structure Resource where
  cores : Nat
  memory : Nat
deriving Repr, DecidableEq

/-- Modelled from the spec: componentwise addition of resources. -/
def Resource.add (a b : Resource) : Resource :=
  ⟨a.cores + b.cores, a.memory + b.memory⟩

/-- Modelled from the spec: componentwise subtraction, saturating at zero. -/
def Resource.sub (a b : Resource) : Resource :=
  ⟨a.cores - b.cores, a.memory - b.memory⟩

/-- Modelled from the spec: dominance test.  `self.can_fit req` is true iff
every component of `req` is at most the corresponding component of `self`. -/
def Resource.can_fit (self req : Resource) : Bool :=
  req.cores ≤ self.cores && req.memory ≤ self.memory

/-- Modelled from the spec: the placement constraint is a closed tagged
variant `{ Any | OnNode(id) | AdjacentTo(id) | InComponentOf(id) }`. -/
inductive PlacementConstraint where
  | Any : PlacementConstraint
  | OnNode : String → PlacementConstraint
  | AdjacentTo : String → PlacementConstraint
  | InComponentOf : String → PlacementConstraint
deriving Repr, DecidableEq

/-- Modelled from the spec: `job.rs` is not under `src/`.  A unit of work:
id, arrival time, requested resources, duration, placement constraint. -/
structure Job where
  id : Nat
  arrival : Nat
  requested : Resource
  duration : Nat
  placement_constraint : PlacementConstraint
deriving Repr, DecidableEq

/-- Modelled from the spec: `node.rs` is not under `src/`.  A single machine:
stable identifier, immutable capacity, current free resources, and the set of
currently hosted job ids. -/
structure Node where
  id : String
  capacity : Resource
  free : Resource
  hosted : List Nat
deriving Repr, DecidableEq

/-- Modelled from the spec: `registry.rs` is not under `src/`.  The collection
of nodes, in insertion order, plus the undirected connectivity graph given as
a list of id pairs. -/
structure NodeRegistry where
  nodes : List Node
  connections : List (String × String)
deriving Repr, DecidableEq

/-- Modelled from the spec: `get(id) -> Node?` looks a node up by id. -/
def NodeRegistry.get (reg : NodeRegistry) (nid : String) : Option Node :=
  reg.nodes.find? (fun n => n.id == nid)

/-- Modelled from the spec: whether two node ids are joined by a connection
(the pair may be listed in either order). -/
def NodeRegistry.adjacent (reg : NodeRegistry) (x y : String) : Bool :=
  reg.connections.any (fun c => (c.1 == x && c.2 == y) || (c.1 == y && c.2 == x))

/-- Modelled from the spec: one expansion step of the connected-component
closure: add every node id adjacent to a member of the accumulator. -/
def NodeRegistry.compStep (reg : NodeRegistry) (acc : List String) : List String :=
  acc ++ (reg.nodes.map Node.id).filter
    (fun y => !acc.contains y && acc.any (fun a => reg.adjacent a y))

/-- Modelled from the spec: iterate the closure step. -/
def NodeRegistry.compClosure (reg : NodeRegistry) : Nat → List String → List String
  | 0, acc => acc
  | k + 1, acc => reg.compClosure k (reg.compStep acc)

/-- Modelled from the spec: the connected component containing `x`,
including `x` itself, as the set of ids reachable from `x`. -/
def NodeRegistry.sameComponent (reg : NodeRegistry) (x y : String) : Bool :=
  (reg.compClosure reg.nodes.length [x]).contains y

/-- Modelled from the spec: `iter_candidates(constraint)` returns, in
deterministic order (insertion order of nodes), every node id satisfying the
structural part of the constraint, ignoring current free resources. -/
def NodeRegistry.iter_candidates (reg : NodeRegistry) :
    PlacementConstraint → List String
  | .Any => reg.nodes.map Node.id
  | .OnNode x => if reg.nodes.any (fun n => n.id == x) then [x] else []
  | .AdjacentTo x =>
      ((reg.nodes.filter (fun n => n.id != x && reg.adjacent x n.id)).map Node.id)
  | .InComponentOf x =>
      ((reg.nodes.filter (fun n => reg.sameComponent x n.id)).map Node.id)

/-- Modelled from the spec: `get_max_cores_memory()` is the componentwise max
across all nodes, used by the host for progress reports. -/
def NodeRegistry.get_max_cores_memory (reg : NodeRegistry) : Nat × Nat :=
  ((reg.nodes.map (fun n => n.capacity.cores)).foldr max 0,
   (reg.nodes.map (fun n => n.capacity.memory)).foldr max 0)

/-- Modelled from the spec: an entry of the scheduler's running map together
with its release event: the job, its hosting node id, and its release time. -/
structure RunEntry where
  job : Job
  node : String
  release_at : Nat
deriving Repr, DecidableEq

/-- Modelled from the spec: the release-event order — `release_at` first,
ties broken by job id. -/
def RunEntry.le (a b : RunEntry) : Bool :=
  a.release_at < b.release_at ||
    (a.release_at == b.release_at && a.job.id ≤ b.job.id)

/-- Modelled from the spec: ordered insertion into the pending-release list,
which doubles as the min-heap of release events. -/
def insertRun (e : RunEntry) : List RunEntry → List RunEntry
  | [] => [e]
  | x :: xs => if RunEntry.le e x then e :: x :: xs else x :: insertRun e xs

/-- Modelled from the spec: `scheduler.rs` is not under `src/`.  Scheduler
state: virtual clock, FIFO queue, running entries sorted by release event,
append-only done list, the registry, and the factory's remaining job stream
(lazy, ordered by non-decreasing arrival; `[]` means exhausted).
Field names follow the accesses in `main.rs` (`jobs_queuing`, `jobs_running`,
`jobs_done`, `now`, `registry`). -/
structure Scheduler where
  now : Nat
  jobs_queuing : List Job
  jobs_running : List RunEntry
  jobs_done : List Job
  registry : NodeRegistry
  factory : List Job
deriving Repr, DecidableEq

/-- Modelled from the spec: `Scheduler::new` owns the registry and the
factory; clock starts at 0 with all job collections empty. -/
def Scheduler.new (reg : NodeRegistry) (fac : List Job) : Scheduler :=
  { now := 0, jobs_queuing := [], jobs_running := [], jobs_done := [],
    registry := reg, factory := fac }

/-- Modelled from the spec: the event horizon is the minimum of the next
arrival time and the earliest pending release; `none` when neither exists. -/
def Scheduler.horizon (s : Scheduler) : Option Nat :=
  match s.factory.head?.map Job.arrival, s.jobs_running.head?.map RunEntry.release_at with
  | none, none => none
  | some a, none => some a
  | none, some r => some r
  | some a, some r => some (min a r)

/-- Modelled from the spec: `node.release` restores the freed resources and
removes the job id from the hosted set. -/
def NodeRegistry.releaseNode (reg : NodeRegistry) (nid : String) (jid : Nat)
    (req : Resource) : NodeRegistry :=
  { reg with nodes := reg.nodes.map (fun n =>
      if n.id == nid then
        { n with free := n.free.add req, hosted := n.hosted.erase jid }
      else n) }

/-- Modelled from the spec: `node.try_admit` on the admitting node: free
shrinks by the request and the job id joins the hosted set. -/
def NodeRegistry.admitJob (reg : NodeRegistry) (nid : String) (j : Job) :
    NodeRegistry :=
  { reg with nodes := reg.nodes.map (fun n =>
      if n.id == nid then
        { n with free := n.free.sub j.requested, hosted := j.id :: n.hosted }
      else n) }

/-- Modelled from the spec: release every due entry, in event order. -/
def NodeRegistry.releaseAll (reg : NodeRegistry) : List RunEntry → NodeRegistry
  | [] => reg
  | e :: es => (reg.releaseNode e.node e.job.id e.job.requested).releaseAll es

/-- Modelled from the spec: the resource check `try_admit` performs — the
node's current free resources dominate the job's request.  (The structural
part of the constraint is the scheduler's business, via `iter_candidates`.) -/
def nodeAdmits (reg : NodeRegistry) (j : Job) (nid : String) : Bool :=
  match reg.get nid with
  | some n => n.free.can_fit j.requested
  | none => false

/-- Modelled from the spec: first-fit — the first candidate node, in the
deterministic order of `iter_candidates`, whose current free resources
dominate the job's request. -/
def firstFit (reg : NodeRegistry) (j : Job) : Option String :=
  (reg.iter_candidates j.placement_constraint).find? (nodeAdmits reg j)

/-- Modelled from the spec: the placement phase.  Jobs are tried in queue
order; a placed job leaves the queue, is installed on its node, and a release
event is pushed; a job with no admitting candidate stays in the queue and
subsequent jobs are still tried. -/
def placeJobs (now : Nat) : List Job → NodeRegistry → List RunEntry →
    NodeRegistry × List RunEntry × List Job
  | [], reg, run => (reg, run, [])
  | j :: rest, reg, run =>
    match firstFit reg j with
    | some nid =>
        placeJobs now rest (reg.admitJob nid j)
          (insertRun ⟨j, nid, now + j.duration⟩ run)
    | none =>
        let r := placeJobs now rest reg run
        (r.1, r.2.1, j :: r.2.2)

/-- Modelled from the spec: the three phases of a tick once the clock has
been advanced to `now'` — release every due event in heap order, drain every
arrival with `arrival ≤ now'` in factory order, then run the placement
phase over the queue. -/
def Scheduler.tickAt (s : Scheduler) (now' : Nat) : Scheduler :=
  let due := s.jobs_running.takeWhile (fun e => e.release_at ≤ now')
  let rest := s.jobs_running.dropWhile (fun e => e.release_at ≤ now')
  let reg1 := s.registry.releaseAll due
  let done1 := s.jobs_done ++ due.map RunEntry.job
  let arrived := s.factory.takeWhile (fun j => j.arrival ≤ now')
  let fac1 := s.factory.dropWhile (fun j => j.arrival ≤ now')
  let q1 := s.jobs_queuing ++ arrived
  let p := placeJobs now' q1 reg1 rest
  { now := now', jobs_queuing := p.2.2, jobs_running := p.2.1,
    jobs_done := done1, registry := p.1, factory := fac1 }

/-- Modelled from the spec: one atomic tick.  Terminal test, clock advance to
the horizon, release phase, arrival phase, placement phase; returns `true`
iff the simulation should continue. -/
def Scheduler.tick (s : Scheduler) : Bool × Scheduler :=
  if s.jobs_queuing.isEmpty && s.jobs_running.isEmpty && s.factory.isEmpty then
    (false, s)
  else
    (true, s.tickAt (match s.horizon with
      | some h => max s.now h
      | none => s.now))

/-- Modelled from the spec: a queued job is permanently unschedulable iff no
node in its constraint's structural candidate set has capacity (not free)
dominating its request — vacuously so when the candidate set is empty. -/
def permanentlyUnschedulable (reg : NodeRegistry) (j : Job) : Bool :=
  (reg.iter_candidates j.placement_constraint).all (fun nid =>
    match reg.get nid with
    | some n => !(n.capacity.can_fit j.requested)
    | none => true)

/-- Modelled from the spec: `has_unschedulable()` — the residual queue is a
dead end: the queue is non-empty and every queued job is permanently
unschedulable, the factory is exhausted, and nothing is running.  (The
non-emptiness of the queue is forced by the exit-code contract: on full
completion — an empty queue under a dry pipeline — the driver must exit 0,
which `main.rs` implements by returning `Ok(())` when `has_unschedulable()`
is false after the loop.) -/
def Scheduler.has_unschedulable (s : Scheduler) : Bool :=
  !s.jobs_queuing.isEmpty &&
    s.factory.isEmpty &&
    s.jobs_running.isEmpty &&
    s.jobs_queuing.all (fun j => permanentlyUnschedulable s.registry j)

/-! ## Accounting notions used to state the conservation invariant -/

/-- The running entries hosted on a given node. -/
def runningOn (run : List RunEntry) (nid : String) : List RunEntry :=
  run.filter (fun e => e.node == nid)

/-- Componentwise sum of a list of resource bundles. -/
def resSum (l : List Resource) : Resource :=
  ⟨(l.map Resource.cores).sum, (l.map Resource.memory).sum⟩

/-- The requested resources of the running job with the given id (zero when
no such job is running) — how a hosted job id is priced by the running map. -/
def requestedOf (run : List RunEntry) (jid : Nat) : Resource :=
  match run.find? (fun e => e.job.id == jid) with
  | some e => e.job.requested
  | none => ⟨0, 0⟩

/-- Coupling invariant between a registry and a running list: node ids are
distinct, running job ids are distinct, every entry names an existing node,
each node's hosted set is exactly (as a multiset) the ids of the entries
running on it, and each node's free resources plus the resources of the
entries running on it equal its capacity. -/
def RegInv (reg : NodeRegistry) (run : List RunEntry) : Prop :=
  (reg.nodes.map Node.id).Nodup ∧
  (run.map fun e => e.job.id).Nodup ∧
  (∀ e ∈ run, ∃ n ∈ reg.nodes, n.id = e.node) ∧
  (∀ n ∈ reg.nodes,
     n.hosted.Perm ((runningOn run n.id).map fun e => e.job.id)) ∧
  (∀ n ∈ reg.nodes,
     n.free.add (resSum ((runningOn run n.id).map fun e => e.job.requested))
       = n.capacity)

instance (reg : NodeRegistry) (run : List RunEntry) : Decidable (RegInv reg run) := by
  unfold RegInv
  infer_instance

/-- Scheduler well-formedness: the registry/running coupling holds and the
ids of pending, queued and running jobs are globally distinct. -/
def SchedInv (s : Scheduler) : Prop :=
  RegInv s.registry s.jobs_running ∧
  (s.factory.map Job.id ++ s.jobs_queuing.map Job.id ++
     (s.jobs_running.map fun e => e.job.id)).Nodup

instance (s : Scheduler) : Decidable (SchedInv s) := by
  unfold SchedInv
  infer_instance

/-! ## The driver, embedded from `src/main.rs` -/

/-- The data read by the progress-report block in the host loop
(`main.rs` lines 83–98): collection sizes, the virtual clock, and the
registry's max capacities.  Producing this record is the only interaction the
report block has with the scheduler. -/
structure ReportLine where
  now : Nat
  done : Nat
  running : Nat
  queuing : Nat
  max_cores_memory : Nat × Nat
deriving Repr, DecidableEq

/-- The observation the report block makes of the scheduler. -/
def reportLine (s : Scheduler) : ReportLine :=
  ⟨s.now, s.jobs_done.length, s.jobs_running.length, s.jobs_queuing.length,
   s.registry.get_max_cores_memory⟩

/-- The host loop of `main.rs` (lines 78–104): `while sched.tick()` runs the
report block when the wall-clock interval has elapsed — modelled by the
oracle `rep`, since wall time is outside the simulation — and breaks as soon
as `has_unschedulable()` holds.  `fuel` bounds the number of iterations the
model unfolds; the returned state is the scheduler as the loop leaves it,
paired with the emitted report lines. -/
def simLoop (rep : Nat → Bool) : Nat → Scheduler → Scheduler × List ReportLine
  | 0, s => (s, [])
  | fuel + 1, s =>
    let t := s.tick
    if t.1 then
      let log := if rep fuel then [reportLine t.2] else []
      if t.2.has_unschedulable then (t.2, log)
      else
        let r := simLoop rep fuel t.2
        (r.1, log ++ r.2)
    else (t.2, [])

/-- Which job-factory variant `main` constructs (`main.rs` lines 55–64). -/
inductive FactoryKind where
  | streaming (jobs_path : String)
  | streamingWithOutput (jobs_path : String) (out_path : String)
deriving Repr, DecidableEq

/-- The collaborator objects `main` instantiates, in order. -/
inductive BuildEvent where
  | registry
  | factory (kind : FactoryKind)
  | scheduler
deriving Repr, DecidableEq

/-- How the process exits.  `ok` is exit status 0; every other outcome is a
non-zero exit (`bail!` for `usageError` and `unschedulable`, an `unwrap`
panic for `parseFailure`, an out-of-bounds panic for `indexPanic`).
`unschedulable` carries the residual-queue report of `main.rs` lines
111–115: the count of jobs left in `jobs_queuing` and each such job. -/
inductive MainOutcome where
  | ok
  | usageError
  | parseFailure
  | indexPanic
  | unschedulable (count : Nat) (residual : List Job)
deriving Repr, DecidableEq

/-- `main` from `main.rs`, with the file-system reads abstracted into the
parse oracles `parseRegistry` (for `NodeRegistry::from_paths`) and
`parseJobs` (for the jobs file both factory variants stream), `none` meaning
the `Result` was an error, so `.unwrap()` panics.  Argument indexing is
modelled with `List.get?`, `none` marking the out-of-bounds panic that
`arguments[i]` would be. -/
def mainRun (parseRegistry : String → String → Option NodeRegistry)
    (parseJobs : String → Option (List Job)) (rep : Nat → Bool) (fuel : Nat)
    (arguments : List String) : MainOutcome × List BuildEvent :=
  if arguments.length < 1 + 3 ∨ arguments.length > 1 + 3 + 1 then
    (.usageError, [])
  else
    match arguments.get? 1, arguments.get? 2, arguments.get? 3 with
    | some path_nodes, some path_connections, some path_jobs =>
      match parseRegistry path_nodes path_connections with
      | none => (.parseFailure, [])
      | some registry =>
        let kindOpt : Option FactoryKind :=
          if arguments.length == 1 + 3 then some (.streaming path_jobs)
          else
            match arguments.get? 4 with
            | some path_output_trace =>
                some (.streamingWithOutput path_jobs path_output_trace)
            | none => none
        match kindOpt with
        | none => (.indexPanic, [.registry])
        | some kind =>
          match parseJobs path_jobs with
          | none => (.parseFailure, [.registry])
          | some jobs =>
            let events := [.registry, .factory kind, .scheduler]
            let final := (simLoop rep fuel (Scheduler.new registry jobs)).1
            if final.has_unschedulable then
              (.unschedulable final.jobs_queuing.length final.jobs_queuing,
               events)
            else
              (.ok, events)
    | _, _, _ => (.indexPanic, [])

/-- Iterated ticks: run `tick` some number of times, keeping only the state. -/
def tickIter : Nat → Scheduler → Scheduler
  | 0, s => s
  | n + 1, s => tickIter n s.tick.2

/-- A one-node registry used as a concrete test fixture (the spec's
"trivial fit" scenario). -/
def exRegistry : NodeRegistry :=
  ⟨[⟨"A", ⟨4, 8⟩, ⟨4, 8⟩, []⟩], []⟩

/-- The "trivial fit" job: fits on node `A` and runs for 10 time units. -/
def exJob : Job := ⟨1, 0, ⟨2, 4⟩, 10, .Any⟩

/-- Fixture scheduler for the "trivial fit" scenario. -/
def exSched : Scheduler := Scheduler.new exRegistry [exJob]

/-- Fixture scheduler for the spec's "structural rejection" scenario: the
only job demands a node that was never declared. -/
def exRejSched : Scheduler :=
  Scheduler.new exRegistry [⟨1, 0, ⟨1, 1⟩, 1, .OnNode "Z"⟩]

/-! ## Theorems -/

/-- **C4**: if the factory is exhausted and both the queued sequence and the
running set are empty, `tick()` returns `false` and leaves the entire
scheduler state unchanged, and every subsequent call to `tick()` does the
same: the empty pipeline is a fixed point. -/
theorem C4_empty_pipeline_fixed_point (s : Scheduler)
    (hq : s.jobs_queuing = []) (hr : s.jobs_running = [])
    (hf : s.factory = []) :
    s.tick = (false, s) ∧ ∀ n : Nat, tickIter n s = s := by
  have htick : s.tick = (false, s) := by
    simp [Scheduler.tick, hq, hr, hf]
  refine ⟨htick, ?_⟩
  intro n
  induction n with
  | zero => rfl
  | succ k ih =>
      show tickIter k s.tick.2 = s
      rw [htick]
      exact ih

/-- Witness for C4 at a concrete empty pipeline. -/
theorem C4_empty_pipeline_fixed_point_witness :
    (Scheduler.new ⟨[], []⟩ []).tick = (false, Scheduler.new ⟨[], []⟩ []) ∧
    ∀ n : Nat, tickIter n (Scheduler.new ⟨[], []⟩ []) = Scheduler.new ⟨[], []⟩ [] :=
  C4_empty_pipeline_fixed_point (Scheduler.new ⟨[], []⟩ []) rfl rfl rfl

/-- **C8**: argument vectors with fewer than three or more than four path
arguments after the program name get a usage error and nothing is
constructed; exactly three or four path arguments pass the check. -/
theorem C8_usage_check (pr : String → String → Option NodeRegistry)
    (pj : String → Option (List Job)) (rep : Nat → Bool) (fuel : Nat)
    (args : List String) :
    (args.length < 1 + 3 ∨ args.length > 1 + 3 + 1 →
       mainRun pr pj rep fuel args = (.usageError, [])) ∧
    ((mainRun pr pj rep fuel args).1 ≠ .usageError ↔
       1 + 3 ≤ args.length ∧ args.length ≤ 1 + 3 + 1) := by
  constructor
  · intro h
    simp only [mainRun]
    rw [if_pos h]
  · constructor
    · intro hne
      by_contra hlen
      rcases not_and_or.mp hlen with h | h
      · exact hne (by simp only [mainRun]; rw [if_pos (Or.inl (by omega))])
      · exact hne (by simp only [mainRun]; rw [if_pos (Or.inr (by omega))])
    · intro hlen
      have hcond : ¬(args.length < 1 + 3 ∨ args.length > 1 + 3 + 1) := by omega
      simp only [mainRun]
      rw [if_neg hcond]
      split
      · split
        · simp
        · split
          · simp
          · split
            · simp
            · split <;> simp
      · simp

/-- Witness for C8 at a one-element argument vector. -/
theorem C8_usage_check_witness :
    mainRun (fun _ _ => none) (fun _ => none) (fun _ => false) 0 ["prog"]
      = (.usageError, []) :=
  (C8_usage_check (fun _ _ => none) (fun _ => none) (fun _ => false) 0
      ["prog"]).1 (Or.inl (by simp))

/-- **C10**: every index into the argument vector in `main` is in bounds;
`main` never reaches an out-of-bounds argument access, for any argument
vector. -/
theorem C10_no_index_panic (pr : String → String → Option NodeRegistry)
    (pj : String → Option (List Job)) (rep : Nat → Bool) (fuel : Nat)
    (args : List String) :
    (mainRun pr pj rep fuel args).1 ≠ .indexPanic := by
  simp only [mainRun]
  by_cases hcond : args.length < 1 + 3 ∨ args.length > 1 + 3 + 1
  · rw [if_pos hcond]
    simp
  · rw [if_neg hcond]
    push_neg at hcond
    obtain ⟨hge, hle⟩ := hcond
    have h1 : ∃ a, args.get? 1 = some a := by
      cases h : args.get? 1 with
      | none => rw [List.get?_eq_none] at h; omega
      | some a => exact ⟨a, rfl⟩
    have h2 : ∃ a, args.get? 2 = some a := by
      cases h : args.get? 2 with
      | none => rw [List.get?_eq_none] at h; omega
      | some a => exact ⟨a, rfl⟩
    have h3 : ∃ a, args.get? 3 = some a := by
      cases h : args.get? 3 with
      | none => rw [List.get?_eq_none] at h; omega
      | some a => exact ⟨a, rfl⟩
    obtain ⟨a1, ha1⟩ := h1
    obtain ⟨a2, ha2⟩ := h2
    obtain ⟨a3, ha3⟩ := h3
    simp only [ha1, ha2, ha3]
    cases hpr : pr a1 a2 with
    | none => simp
    | some registry =>
      by_cases hlen4 : args.length = 1 + 3
      · have hbeq : (args.length == 1 + 3) = true := by simp [hlen4]
        simp only [hbeq]
        cases hpj : pj a3 with
        | none => simp
        | some jobs =>
            split
            · next heq => simp at heq
            · next kind heq =>
                split
                · next heq2 => simp at heq2
                · next jobs2 heq2 => split <;> simp
      · have hlen5 : args.length = 1 + 3 + 1 := by omega
        have h4 : ∃ a, args.get? 4 = some a := by
          cases h : args.get? 4 with
          | none => rw [List.get?_eq_none] at h; omega
          | some a => exact ⟨a, rfl⟩
        obtain ⟨a4, ha4⟩ := h4
        have hbeq : (args.length == 1 + 3) = false := by simp [hlen4]
        simp only [hbeq, ha4]
        cases hpj : pj a3 with
        | none => simp
        | some jobs =>
            split
            · next heq => simp at heq
            · next kind heq =>
                split
                · next heq2 => simp at heq2
                · next jobs2 heq2 => split <;> simp

/-- Witness: C10 has only non-Prop binders, but we record a concrete
instance anyway at an argument vector that exercises the five-argument
branch. -/
theorem C10_no_index_panic_witness :
    (mainRun (fun _ _ => some ⟨[], []⟩) (fun _ => some []) (fun _ => false) 0
      ["prog", "n", "c", "j", "t"]).1 ≠ .indexPanic :=
  C10_no_index_panic (fun _ _ => some ⟨[], []⟩) (fun _ => some [])
    (fun _ => false) 0 ["prog", "n", "c", "j", "t"]

/-- **C7**: the output trace is enabled exactly when a fourth path argument
is supplied: with four path arguments `main` constructs the trace-writing
`JobStreamingWithOutput` variant from the jobs path and the trace path, and
with three it constructs the plain `JobStreaming` variant; both are handed
to the scheduler through the same factory interface. -/
theorem C7_factory_variant (pr : String → String → Option NodeRegistry)
    (pj : String → Option (List Job)) (rep : Nat → Bool) (fuel : Nat)
    (p0 p1 p2 p3 p4 : String) (reg : NodeRegistry) (jobs : List Job)
    (hreg : pr p1 p2 = some reg) (hjobs : pj p3 = some jobs) :
    (mainRun pr pj rep fuel [p0, p1, p2, p3]).2
        = [.registry, .factory (.streaming p3), .scheduler] ∧
    (mainRun pr pj rep fuel [p0, p1, p2, p3, p4]).2
        = [.registry, .factory (.streamingWithOutput p3 p4), .scheduler] := by
  constructor
  · simp only [mainRun]
    rw [if_neg (by simp)]
    simp [hreg, hjobs]
    split <;> rfl
  · simp only [mainRun]
    rw [if_neg (by simp)]
    simp [hreg, hjobs]
    split <;> rfl

/-- Witness for C7 at concrete paths and parse oracles. -/
theorem C7_factory_variant_witness :
    (mainRun (fun _ _ => some ⟨[], []⟩) (fun _ => some []) (fun _ => false) 0
        ["prog", "n", "c", "j"]).2
      = [.registry, .factory (.streaming "j"), .scheduler] ∧
    (mainRun (fun _ _ => some ⟨[], []⟩) (fun _ => some []) (fun _ => false) 0
        ["prog", "n", "c", "j", "t"]).2
      = [.registry, .factory (.streamingWithOutput "j" "t"), .scheduler] :=
  C7_factory_variant (fun _ _ => some ⟨[], []⟩) (fun _ => some [])
    (fun _ => false) 0 "prog" "n" "c" "j" "t" ⟨[], []⟩ [] rfl rfl

/-- The scheduler state the host loop reaches is independent of when the
progress reports fire. -/
lemma simLoop_fst_indep (rep rep2 : Nat → Bool) :
    ∀ (fuel : Nat) (s : Scheduler),
      (simLoop rep fuel s).1 = (simLoop rep2 fuel s).1 := by
  intro fuel
  induction fuel with
  | zero => intro s; rfl
  | succ k ih =>
      intro s
      simp only [simLoop]
      by_cases hc : s.tick.1 = true
      · by_cases hu : s.tick.2.has_unschedulable = true
        · simp [hc, hu]
        · simp only [Bool.not_eq_true] at hu
          simp [hc, hu, ih s.tick.2]
      · simp only [Bool.not_eq_true] at hc
        simp [hc]

/-- **C9**: the progress-reporting block between ticks is strictly
observational.  The loop's scheduler state does not depend on the report
schedule, and on an iteration that continues, the loop resumes from exactly
the state the preceding `tick()` left, the report (when it fires) being the
pure observation `reportLine` of that state. -/
theorem C9_report_block_observational (fuel : Nat) (rep rep2 : Nat → Bool)
    (s : Scheduler) :
    ((simLoop rep fuel s).1 = (simLoop rep2 fuel s).1) ∧
    (s.tick.1 = true → s.tick.2.has_unschedulable = false →
       simLoop rep (fuel + 1) s
         = ((simLoop rep fuel s.tick.2).1,
            (if rep fuel then [reportLine s.tick.2] else [])
              ++ (simLoop rep fuel s.tick.2).2)) := by
  refine ⟨simLoop_fst_indep rep rep2 fuel s, ?_⟩
  intro hc hu
  simp [simLoop, hc, hu]

/-- Witness for C9: one reported iteration of the "trivial fit" run. -/
theorem C9_report_block_observational_witness :
    simLoop (fun _ => true) (0 + 1) exSched
      = ((simLoop (fun _ => true) 0 exSched.tick.2).1,
         (if (fun _ : Nat => true) 0 then [reportLine exSched.tick.2] else [])
           ++ (simLoop (fun _ => true) 0 exSched.tick.2).2) :=
  (C9_report_block_observational 0 (fun _ => true) (fun _ => false)
      exSched).2 (by decide) (by decide)

/-- **C2**: the host loop stops calling `tick()` as soon as
`has_unschedulable()` is true after a tick, even while `tick()` still
returns `true`; the `main` tail then reports the residual queue — the count
of jobs left in `jobs_queuing` and the jobs themselves — and the outcome is
not the zero exit. -/
theorem C2_halt_and_report_residual (rep : Nat → Bool) (fuel : Nat)
    (s : Scheduler) (hcont : s.tick.1 = true)
    (hu : s.tick.2.has_unschedulable = true) :
    (simLoop rep (fuel + 1) s
        = (s.tick.2, if rep fuel then [reportLine s.tick.2] else [])) ∧
    (∀ (pr : String → String → Option NodeRegistry)
       (pj : String → Option (List Job)) (p0 p1 p2 p3 : String)
       (reg : NodeRegistry) (jobs : List Job),
       pr p1 p2 = some reg → pj p3 = some jobs →
       (simLoop rep fuel (Scheduler.new reg jobs)).1.has_unschedulable = true →
       mainRun pr pj rep fuel [p0, p1, p2, p3]
         = (.unschedulable
              (simLoop rep fuel (Scheduler.new reg jobs)).1.jobs_queuing.length
              (simLoop rep fuel (Scheduler.new reg jobs)).1.jobs_queuing,
            [.registry, .factory (.streaming p3), .scheduler])) ∧
    (∀ (c : Nat) (r : List Job), MainOutcome.unschedulable c r ≠ .ok) := by
  refine ⟨?_, ?_, by intro c r; simp⟩
  · simp [simLoop, hcont, hu]
  · intro pr pj p0 p1 p2 p3 reg jobs hreg hjobs hfin
    simp only [mainRun]
    rw [if_neg (by simp)]
    simp [hreg, hjobs, hfin]

/-- Witness for C2 on the "structural rejection" scenario: the first tick
returns `true` yet leaves an unschedulable residue, and the loop halts on
the post-tick state at once. -/
theorem C2_halt_and_report_residual_witness :
    simLoop (fun _ => false) (0 + 1) exRejSched
      = (exRejSched.tick.2,
         if (fun _ : Nat => false) 0 then [reportLine exRejSched.tick.2]
         else []) :=
  (C2_halt_and_report_residual (fun _ => false) 0 exRejSched (by decide)
      (by decide)).1

/-- **C1**: the program's outcome is the zero exit exactly when the driver
loop ends with `has_unschedulable()` false: an `ok` outcome forces in-bounds
paths, successful parses, and a final loop state without unschedulable
residue, and conversely under a well-formed invocation `ok` holds iff the
loop's final state has `has_unschedulable()` false; malformed input never
yields `ok`. -/
theorem C1_exit_zero_iff_complete (pr : String → String → Option NodeRegistry)
    (pj : String → Option (List Job)) (rep : Nat → Bool) (fuel : Nat) :
    (∀ args : List String, (mainRun pr pj rep fuel args).1 = .ok →
       ∃ p1 p2 p3 reg jobs,
         args.get? 1 = some p1 ∧ args.get? 2 = some p2 ∧
         args.get? 3 = some p3 ∧ pr p1 p2 = some reg ∧ pj p3 = some jobs ∧
         (simLoop rep fuel (Scheduler.new reg jobs)).1.has_unschedulable
           = false) ∧
    (∀ (p0 p1 p2 p3 : String) (reg : NodeRegistry) (jobs : List Job),
       pr p1 p2 = some reg → pj p3 = some jobs →
       ((mainRun pr pj rep fuel [p0, p1, p2, p3]).1 = .ok ↔
         (simLoop rep fuel (Scheduler.new reg jobs)).1.has_unschedulable
           = false)) := by
  constructor
  · intro args h
    simp only [mainRun] at h
    by_cases hcond : args.length < 1 + 3 ∨ args.length > 1 + 3 + 1
    · rw [if_pos hcond] at h
      simp at h
    · rw [if_neg hcond] at h
      push_neg at hcond
      obtain ⟨hge, hle⟩ := hcond
      have hex1 : ∃ a, args.get? 1 = some a := by
        cases hh : args.get? 1 with
        | none => rw [List.get?_eq_none] at hh; omega
        | some a => exact ⟨a, rfl⟩
      have hex2 : ∃ a, args.get? 2 = some a := by
        cases hh : args.get? 2 with
        | none => rw [List.get?_eq_none] at hh; omega
        | some a => exact ⟨a, rfl⟩
      have hex3 : ∃ a, args.get? 3 = some a := by
        cases hh : args.get? 3 with
        | none => rw [List.get?_eq_none] at hh; omega
        | some a => exact ⟨a, rfl⟩
      obtain ⟨a1, h1⟩ := hex1
      obtain ⟨a2, h2⟩ := hex2
      obtain ⟨a3, h3⟩ := hex3
      simp only [h1, h2, h3] at h
      cases hpr : pr a1 a2 with
      | none => simp [hpr] at h
      | some reg =>
              simp only [hpr] at h
              by_cases hlen4 : args.length = 1 + 3
              · have hbeq : (args.length == 1 + 3) = true := by simp [hlen4]
                simp only [hbeq] at h
                cases hpj : pj a3 with
                | none => simp [hpj] at h
                | some jobs =>
                  simp only [hpj] at h
                  by_cases hu :
                      (simLoop rep fuel
                        (Scheduler.new reg jobs)).1.has_unschedulable = true
                  · simp [hu] at h
                  · simp only [Bool.not_eq_true] at hu
                    exact ⟨a1, a2, a3, reg, jobs, h1, h2, h3, hpr, hpj, hu⟩
              · have hbeq : (args.length == 1 + 3) = false := by simp [hlen4]
                simp only [hbeq] at h
                cases h4 : args.get? 4 with
                | none => rw [List.get?_eq_none] at h4; omega
                | some a4 =>
                  simp only [h4] at h
                  cases hpj : pj a3 with
                  | none => simp [hpj] at h
                  | some jobs =>
                    simp only [hpj] at h
                    by_cases hu :
                        (simLoop rep fuel
                          (Scheduler.new reg jobs)).1.has_unschedulable = true
                    · simp [hu] at h
                    · simp only [Bool.not_eq_true] at hu
                      exact ⟨a1, a2, a3, reg, jobs, h1, h2, h3, hpr, hpj, hu⟩
  · intro p0 p1 p2 p3 reg jobs hreg hjobs
    simp only [mainRun]
    rw [if_neg (by simp)]
    by_cases hu :
        (simLoop rep fuel (Scheduler.new reg jobs)).1.has_unschedulable = true
    · simp [hreg, hjobs, hu]
    · simp only [Bool.not_eq_true] at hu
      simp [hreg, hjobs, hu]

/-- Witness for C1: a well-formed invocation with an empty job stream exits
with the zero outcome. -/
theorem C1_exit_zero_iff_complete_witness :
    (mainRun (fun _ _ => some exRegistry) (fun _ => some [])
        (fun _ => false) 0 ["prog", "n", "c", "j"]).1 = .ok :=
  ((C1_exit_zero_iff_complete (fun _ _ => some exRegistry) (fun _ => some [])
      (fun _ => false) 0).2 "prog" "n" "c" "j" exRegistry [] rfl rfl).mpr
    (by decide)

/-- **C3** (counterexample): at the fully completed state — empty queue, dry
factory, nothing running — "every job currently in the queue is permanently
unschedulable" holds vacuously and the pipeline is dry, yet
`has_unschedulable()` is false there (it must be: `main.rs` exits 0 through
its `has_unschedulable()` test precisely in this state).  The claimed iff
therefore fails at this state. -/
theorem C3_unschedulable_counterexample :
    (∀ j ∈ (Scheduler.new exRegistry []).jobs_queuing,
       (Scheduler.new exRegistry []).registry.iter_candidates
           j.placement_constraint = [] ∨
       ∀ nid ∈ (Scheduler.new exRegistry []).registry.iter_candidates
           j.placement_constraint,
         ∀ n, (Scheduler.new exRegistry []).registry.get nid = some n →
           n.capacity.can_fit j.requested = false) ∧
    (Scheduler.new exRegistry []).factory = [] ∧
    (Scheduler.new exRegistry []).jobs_running = [] ∧
    (Scheduler.new exRegistry []).has_unschedulable = false :=
  ⟨by intro j hj; simp [Scheduler.new] at hj, rfl, rfl, by decide⟩

/-- **C3** (amended): `has_unschedulable()` is true iff the queue is
**non-empty** and every queued job is permanently unschedulable (its
structural candidate set is empty, or no candidate node's capacity — not
free — dominates its request), the factory is exhausted, and the running
set is empty. -/
theorem C3_unschedulable_characterization (s : Scheduler) :
    s.has_unschedulable = true ↔
      s.jobs_queuing ≠ [] ∧
      (∀ j ∈ s.jobs_queuing,
         s.registry.iter_candidates j.placement_constraint = [] ∨
         ∀ nid ∈ s.registry.iter_candidates j.placement_constraint,
           ∀ n, s.registry.get nid = some n →
             n.capacity.can_fit j.requested = false) ∧
      s.factory = [] ∧ s.jobs_running = [] := by
  have hdisj : ∀ (L : List String) (P : String → Prop),
      (L = [] ∨ ∀ x ∈ L, P x) ↔ (∀ x ∈ L, P x) := by
    intro L P
    constructor
    · rintro (rfl | h)
      · simp
      · exact h
    · exact Or.inr
  have hmatch : ∀ j : Job,
      (permanentlyUnschedulable s.registry j = true ↔
        ∀ nid ∈ s.registry.iter_candidates j.placement_constraint,
          ∀ n, s.registry.get nid = some n →
            n.capacity.can_fit j.requested = false) := by
    intro j
    simp only [permanentlyUnschedulable, List.all_eq_true]
    constructor
    · intro h nid hmem n hg
      have := h nid hmem
      rw [hg] at this
      simpa using this
    · intro h nid hmem
      cases hg : s.registry.get nid with
      | none => simp
      | some n => simpa using h nid hmem n hg
  simp only [Scheduler.has_unschedulable, Bool.and_eq_true, Bool.not_eq_true',
    List.isEmpty_eq_false_iff_exists_mem, List.all_eq_true]
  constructor
  · rintro ⟨⟨⟨hne, hfac⟩, hrun⟩, hall⟩
    refine ⟨?_, ?_, ?_, ?_⟩
    · obtain ⟨x, hx⟩ := hne
      intro hnil
      rw [hnil] at hx
      exact absurd hx (List.not_mem_nil x)
    · intro j hj
      rw [hdisj]
      exact (hmatch j).mp (hall j hj)
    · exact List.isEmpty_iff.mp hfac
    · exact List.isEmpty_iff.mp hrun
  · rintro ⟨hne, hall, hfac, hrun⟩
    refine ⟨⟨⟨?_, ?_⟩, ?_⟩, ?_⟩
    · cases hq : s.jobs_queuing with
      | nil => exact absurd hq hne
      | cons x xs => exact ⟨x, by simp⟩
    · exact List.isEmpty_iff.mpr hfac
    · exact List.isEmpty_iff.mpr hrun
    · intro j hj
      exact (hmatch j).mpr ((hdisj _ _).mp (hall j hj))

/-- `find?` returns exactly the first element satisfying the predicate: the
list splits into a failing prefix, the hit, and a tail. -/
lemma find?_eq_some_split {α : Type} (p : α → Bool) (a : α) :
    ∀ l : List α, l.find? p = some a ↔
      ∃ l₁ l₂, l = l₁ ++ a :: l₂ ∧ (∀ x ∈ l₁, p x = false) ∧ p a = true := by
  intro l
  induction l with
  | nil => simp
  | cons x xs ih =>
    by_cases hx : p x = true
    · rw [List.find?_cons_of_pos _ hx]
      constructor
      · rintro h
        rw [Option.some_inj] at h
        subst h
        exact ⟨[], xs, rfl, by simp, hx⟩
      · rintro ⟨l₁, l₂, heq, hfail, hpa⟩
        cases l₁ with
        | nil =>
            simp only [List.nil_append, List.cons.injEq] at heq
            rw [heq.1]
        | cons y ys =>
            simp only [List.cons_append, List.cons.injEq] at heq
            have : p x = false := heq.1 ▸ hfail y (by simp)
            rw [this] at hx
            cases hx
    · have hx' : p x = false := by simpa using hx
      rw [List.find?_cons_of_neg _ (by simp [hx'])]
      rw [ih]
      constructor
      · rintro ⟨l₁, l₂, rfl, hfail, hpa⟩
        refine ⟨x :: l₁, l₂, rfl, ?_, hpa⟩
        intro z hz
        rcases List.mem_cons.mp hz with rfl | hz'
        · exact hx'
        · exact hfail z hz'
      · rintro ⟨l₁, l₂, heq, hfail, hpa⟩
        cases l₁ with
        | nil =>
            simp only [List.nil_append, List.cons.injEq] at heq
            rw [← heq.1] at hpa
            rw [hpa] at hx'
            cases hx'
        | cons y ys =>
            simp only [List.cons_append, List.cons.injEq] at heq
            refine ⟨ys, l₂, heq.2, ?_, hpa⟩
            intro z hz
            exact hfail z (by simp [hz])

/-- **C5**: during the placement phase jobs are tried in queue order; a job
is admitted on the first node, in the deterministic `iter_candidates` order,
whose current free resources dominate its request (the candidate list splits
into a refusing prefix and the admitting hit); and a job no candidate admits
stays in the queue while placement continues with the subsequent jobs. -/
theorem C5_first_fit_placement (reg : NodeRegistry) (run : List RunEntry)
    (now : Nat) (j : Job) (rest : List Job) :
    (∀ nid : String, firstFit reg j = some nid ↔
       ∃ pre post,
         reg.iter_candidates j.placement_constraint = pre ++ nid :: post ∧
         (∀ m ∈ pre, nodeAdmits reg j m = false) ∧
         nodeAdmits reg j nid = true) ∧
    (∀ nid : String, firstFit reg j = some nid →
       placeJobs now (j :: rest) reg run
         = placeJobs now rest (reg.admitJob nid j)
             (insertRun ⟨j, nid, now + j.duration⟩ run)) ∧
    (firstFit reg j = none →
       placeJobs now (j :: rest) reg run
         = ((placeJobs now rest reg run).1,
            (placeJobs now rest reg run).2.1,
            j :: (placeJobs now rest reg run).2.2)) ∧
    (firstFit reg j = none →
       ∀ m ∈ reg.iter_candidates j.placement_constraint,
         nodeAdmits reg j m = false) := by
  refine ⟨?_, ?_, ?_, ?_⟩
  · intro nid
    exact find?_eq_some_split (nodeAdmits reg j) nid _
  · intro nid h
    simp [placeJobs, h]
  · intro h
    simp [placeJobs, h]
  · intro h m hm
    have := List.find?_eq_none.mp h m hm
    simpa using this

/-- Witness for C5: the "trivial fit" job is admitted on node `A`, the first
(and only) candidate, and placement recurses on the rest of the queue with
the updated registry and release heap. -/
theorem C5_first_fit_placement_witness :
    firstFit exRegistry exJob = some "A" ∧
    placeJobs 0 [exJob] exRegistry []
      = placeJobs 0 [] (exRegistry.admitJob "A" exJob)
          (insertRun ⟨exJob, "A", 0 + exJob.duration⟩ []) :=
  ⟨by decide,
   (C5_first_fit_placement exRegistry [] 0 exJob []).2.1 "A" (by decide)⟩

/-- Witness for the amended C3: after one tick of the "structural
rejection" scenario the detector fires, and the characterization unpacks it
at that concrete state. -/
theorem C3_unschedulable_characterization_witness :
    exRejSched.tick.2.jobs_queuing ≠ [] ∧
    (∀ j ∈ exRejSched.tick.2.jobs_queuing,
       exRejSched.tick.2.registry.iter_candidates j.placement_constraint
           = [] ∨
       ∀ nid ∈ exRejSched.tick.2.registry.iter_candidates
           j.placement_constraint,
         ∀ n, exRejSched.tick.2.registry.get nid = some n →
           n.capacity.can_fit j.requested = false) ∧
    exRejSched.tick.2.factory = [] ∧ exRejSched.tick.2.jobs_running = [] :=
  (C3_unschedulable_characterization exRejSched.tick.2).mp (by decide)

/-- Resource addition is associative. -/
lemma Resource.add_assoc (a b c : Resource) :
    (a.add b).add c = a.add (b.add c) := by
  simp [Resource.add, Nat.add_assoc]

/-- Adding the zero bundle changes nothing. -/
lemma Resource.add_zero_right (a : Resource) : a.add ⟨0, 0⟩ = a := by
  simp [Resource.add]

/-- Saturating subtraction is exact under dominance: taking a dominated
request away and restoring it leaves the accounting balanced. -/
lemma Resource.sub_add_of_can_fit (f r s : Resource)
    (h : f.can_fit r = true) : (f.sub r).add (r.add s) = f.add s := by
  cases f with
  | mk fc fm =>
    cases r with
    | mk rc rm =>
      simp only [Resource.can_fit, Bool.and_eq_true, decide_eq_true_eq] at h
      simp only [Resource.add, Resource.sub, Resource.mk.injEq]
      omega

lemma resSum_cons (x : Resource) (l : List Resource) :
    resSum (x :: l) = x.add (resSum l) := by
  simp [resSum, Resource.add]

lemma resSum_perm {l l' : List Resource} (h : l.Perm l') :
    resSum l = resSum l' := by
  simp only [resSum]
  rw [(h.map Resource.cores).sum_eq, (h.map Resource.memory).sum_eq]

lemma runningOn_cons (e : RunEntry) (run : List RunEntry) (nid : String) :
    runningOn (e :: run) nid
      = if e.node == nid then e :: runningOn run nid
        else runningOn run nid := by
  simp only [runningOn, List.filter]
  split <;> simp_all

lemma runningOn_perm {run run' : List RunEntry} (nid : String)
    (h : run.Perm run') : (runningOn run nid).Perm (runningOn run' nid) :=
  h.filter _

/-- Ordered insertion is a permutation of plain cons. -/
lemma insertRun_perm (e : RunEntry) :
    ∀ l : List RunEntry, (insertRun e l).Perm (e :: l) := by
  intro l
  induction l with
  | nil => exact List.Perm.refl _
  | cons x xs ih =>
      simp only [insertRun]
      split
      · exact List.Perm.refl _
      · exact (ih.cons x).trans (List.Perm.swap e x xs)

/-- A per-node update that keeps ids fixed keeps the id list fixed. -/
lemma nodes_map_update_id (f : Node → Node) (hf : ∀ n, (f n).id = n.id)
    (l : List Node) : (l.map f).map Node.id = l.map Node.id := by
  rw [List.map_map]
  exact List.map_congr_left (fun a _ => hf a)

lemma NodeRegistry.get_some {reg : NodeRegistry} {nid : String} {n : Node}
    (h : reg.get nid = some n) : n ∈ reg.nodes ∧ n.id = nid := by
  refine ⟨List.mem_of_find?_eq_some h, ?_⟩
  have := List.find?_some h
  simpa using this

/-- With distinct running ids, looking a member entry up by its job id finds
exactly that entry. -/
lemma find?_jid_eq_self :
    ∀ (run : List RunEntry), ((run.map fun e => e.job.id).Nodup) →
      ∀ e ∈ run, run.find? (fun x => x.job.id == e.job.id) = some e := by
  intro run
  induction run with
  | nil => intro _ e he; cases he
  | cons x xs ih =>
      intro hn e he
      rcases List.mem_cons.mp he with rfl | he'
      · rw [List.find?_cons_of_pos _ (by simp)]
      · have hne : x.job.id ≠ e.job.id := by
          intro hcontra
          have : e.job.id ∈ xs.map fun e => e.job.id :=
            List.mem_map_of_mem _ he'
          rw [← hcontra] at this
          exact (List.nodup_cons.mp hn).1 this
        rw [List.find?_cons_of_neg _ (by simp [hne])]
        exact ih (List.nodup_cons.mp hn).2 e he'

/-- Releasing the head running entry preserves the registry coupling. -/
lemma regInv_release_step (reg : NodeRegistry) (e : RunEntry)
    (rs : List RunEntry) (h : RegInv reg (e :: rs)) :
    RegInv (reg.releaseNode e.node e.job.id e.job.requested) rs := by
  obtain ⟨hnodes, hrun, hex, hperm, hcons⟩ := h
  have hid : ∀ n : Node,
      ((if n.id == e.node then
          { n with free := n.free.add e.job.requested,
                   hosted := n.hosted.erase e.job.id }
        else n) : Node).id = n.id := by
    intro n; split <;> rfl
  refine ⟨?_, ?_, ?_, ?_, ?_⟩
  · show ((reg.nodes.map _).map Node.id).Nodup
    rw [nodes_map_update_id _ hid]
    exact hnodes
  · exact (List.nodup_cons.mp hrun).2
  · intro e' he'
    obtain ⟨n, hn, hnid⟩ := hex e' (List.mem_cons_of_mem _ he')
    exact ⟨_, List.mem_map_of_mem _ hn, (hid n).trans hnid⟩
  · intro n' hn'
    simp only [NodeRegistry.releaseNode, List.mem_map] at hn'
    obtain ⟨n, hn, rfl⟩ := hn'
    by_cases hbeq : n.id = e.node
    · have hbeq' : (n.id == e.node) = true := by simp [hbeq]
      simp only [hbeq', if_true]
      have h1 : n.hosted.Perm
          ((runningOn (e :: rs) n.id).map fun e => e.job.id) := hperm n hn
      rw [runningOn_cons] at h1
      have hsel : (e.node == n.id) = true := by simp [hbeq]
      rw [hsel] at h1
      simp only [if_true, List.map_cons] at h1
      have h2 := h1.erase e.job.id
      rw [List.erase_cons_head] at h2
      exact h2
    · rw [if_neg (by simp [hbeq])]
      have h1 : n.hosted.Perm
          ((runningOn (e :: rs) n.id).map fun e => e.job.id) := hperm n hn
      rw [runningOn_cons] at h1
      rw [if_neg (by simp; exact fun hc => hbeq hc.symm)] at h1
      exact h1
  · intro n' hn'
    simp only [NodeRegistry.releaseNode, List.mem_map] at hn'
    obtain ⟨n, hn, rfl⟩ := hn'
    by_cases hbeq : n.id = e.node
    · rw [if_pos (by simp [hbeq])]
      have h1 := hcons n hn
      rw [runningOn_cons, if_pos (by simp [hbeq])] at h1
      simp only [List.map_cons] at h1
      rw [resSum_cons] at h1
      show (n.free.add e.job.requested).add
          (resSum ((runningOn rs n.id).map fun e => e.job.requested))
        = n.capacity
      rw [Resource.add_assoc]
      exact h1
    · rw [if_neg (by simp [hbeq])]
      have h1 := hcons n hn
      rw [runningOn_cons, if_neg (by simp; exact fun hc => hbeq hc.symm)] at h1
      exact h1

/-- The whole release phase preserves the registry coupling with respect to
the surviving entries. -/
lemma regInv_releaseAll :
    ∀ (due : List RunEntry) (reg : NodeRegistry) (rest : List RunEntry),
      RegInv reg (due ++ rest) → RegInv (reg.releaseAll due) rest := by
  intro due
  induction due with
  | nil => intro reg rest h; exact h
  | cons e es ih =>
      intro reg rest h
      exact ih _ rest (regInv_release_step reg e (es ++ rest) h)

/-- What a successful admission check yields: an existing node with that id
whose free resources dominate the request. -/
lemma nodeAdmits_spec {reg : NodeRegistry} {j : Job} {nid : String}
    (h : nodeAdmits reg j nid = true) :
    ∃ n0 ∈ reg.nodes, n0.id = nid ∧ n0.free.can_fit j.requested = true := by
  unfold nodeAdmits at h
  cases hg : reg.get nid with
  | none => rw [hg] at h; cases h
  | some n0 =>
      rw [hg] at h
      obtain ⟨hmem, hid⟩ := NodeRegistry.get_some hg
      exact ⟨n0, hmem, hid, h⟩

/-- Admitting a fresh job on an admitting node preserves the registry
coupling. -/
lemma regInv_admit_step (reg : NodeRegistry) (run : List RunEntry) (j : Job)
    (nid : String) (t : Nat) (h : RegInv reg run)
    (hadm : nodeAdmits reg j nid = true)
    (hnew : j.id ∉ run.map fun e => e.job.id) :
    RegInv (reg.admitJob nid j) (insertRun ⟨j, nid, t⟩ run) := by
  obtain ⟨hnodes, hrun, hex, hperm, hcons⟩ := h
  obtain ⟨n0, hn0, hn0id, hn0fit⟩ := nodeAdmits_spec hadm
  have hid : ∀ n : Node,
      ((if n.id == nid then
          { n with free := n.free.sub j.requested,
                   hosted := j.id :: n.hosted }
        else n) : Node).id = n.id := by
    intro n; split <;> rfl
  have hrunperm : (insertRun ⟨j, nid, t⟩ run).Perm (⟨j, nid, t⟩ :: run) :=
    insertRun_perm _ run
  refine ⟨?_, ?_, ?_, ?_, ?_⟩
  · show ((reg.nodes.map _).map Node.id).Nodup
    rw [nodes_map_update_id _ hid]
    exact hnodes
  · have : ((insertRun ⟨j, nid, t⟩ run).map fun e => e.job.id).Perm
        (j.id :: run.map fun e => e.job.id) := hrunperm.map _
    rw [this.nodup_iff]
    exact List.nodup_cons.mpr ⟨hnew, hrun⟩
  · intro e' he'
    rcases List.mem_cons.mp (hrunperm.mem_iff.mp he') with rfl | he''
    · refine ⟨_, List.mem_map_of_mem _ hn0, ?_⟩
      exact (hid n0).trans hn0id
    · obtain ⟨n, hn, hnid⟩ := hex e' he''
      exact ⟨_, List.mem_map_of_mem _ hn, (hid n).trans hnid⟩
  · intro n' hn'
    simp only [NodeRegistry.admitJob, List.mem_map] at hn'
    obtain ⟨n, hn, rfl⟩ := hn'
    have hfperm : (runningOn (insertRun ⟨j, nid, t⟩ run) n.id).Perm
        (runningOn (⟨j, nid, t⟩ :: run) n.id) := runningOn_perm _ hrunperm
    by_cases hbeq : n.id = nid
    · rw [if_pos (by simp [hbeq])]
      have hsel : runningOn (⟨j, nid, t⟩ :: run) n.id
          = ⟨j, nid, t⟩ :: runningOn run n.id := by
        rw [runningOn_cons, if_pos (by simp [hbeq])]
      show (j.id :: n.hosted).Perm _
      refine List.Perm.trans ?_ ((hfperm.map fun e => e.job.id).symm)
      rw [hsel]
      simp only [List.map_cons]
      exact (hperm n hn).cons j.id
    · rw [if_neg (by simp [hbeq])]
      have hsel : runningOn (⟨j, nid, t⟩ :: run) n.id
          = runningOn run n.id := by
        rw [runningOn_cons, if_neg (by simp; exact fun hc => hbeq hc.symm)]
      refine List.Perm.trans (hperm n hn) ?_
      refine List.Perm.trans ?_ ((hfperm.map fun e => e.job.id).symm)
      rw [hsel]
  · intro n' hn'
    simp only [NodeRegistry.admitJob, List.mem_map] at hn'
    obtain ⟨n, hn, rfl⟩ := hn'
    have hfperm : (runningOn (insertRun ⟨j, nid, t⟩ run) n.id).Perm
        (runningOn (⟨j, nid, t⟩ :: run) n.id) := runningOn_perm _ hrunperm
    by_cases hbeq : n.id = nid
    · rw [if_pos (by simp [hbeq])]
      have hneq : n = n0 :=
        List.inj_on_of_nodup_map hnodes hn hn0 (by rw [hn0id, hbeq])
      have hsel : runningOn (⟨j, nid, t⟩ :: run) n.id
          = ⟨j, nid, t⟩ :: runningOn run n.id := by
        rw [runningOn_cons, if_pos (by simp [hbeq])]
      rw [resSum_perm (hfperm.map fun e => e.job.requested), hsel]
      simp only [List.map_cons]
      rw [resSum_cons]
      show (n.free.sub j.requested).add
          (j.requested.add
            (resSum ((runningOn run n.id).map fun e => e.job.requested)))
        = n.capacity
      rw [Resource.sub_add_of_can_fit _ _ _ (hneq ▸ hn0fit)]
      exact hcons n hn
    · rw [if_neg (by simp [hbeq])]
      have hsel : runningOn (⟨j, nid, t⟩ :: run) n.id
          = runningOn run n.id := by
        rw [runningOn_cons, if_neg (by simp; exact fun hc => hbeq hc.symm)]
      rw [resSum_perm (hfperm.map fun e => e.job.requested), hsel]
      exact hcons n hn

/-- The placement phase preserves the registry coupling, and the ids of the
residual queue and new running list are a permutation of the input ids. -/
lemma placeJobs_regInv (now : Nat) :
    ∀ (q : List Job) (reg : NodeRegistry) (run : List RunEntry),
      RegInv reg run →
      ((q.map Job.id) ++ (run.map fun e => e.job.id)).Nodup →
      RegInv (placeJobs now q reg run).1 (placeJobs now q reg run).2.1 ∧
      (((placeJobs now q reg run).2.2.map Job.id)
          ++ ((placeJobs now q reg run).2.1.map fun e => e.job.id)).Perm
        ((q.map Job.id) ++ (run.map fun e => e.job.id)) := by
  intro q
  induction q with
  | nil =>
      intro reg run h _
      exact ⟨h, List.Perm.refl _⟩
  | cons j rest ih =>
      intro reg run h hnodup
      have hnodup' :
          (j.id :: ((rest.map Job.id)
            ++ (run.map fun e => e.job.id))).Nodup := by
        simpa using hnodup
      cases hf : firstFit reg j with
      | some nid =>
          have hstep : placeJobs now (j :: rest) reg run
              = placeJobs now rest (reg.admitJob nid j)
                  (insertRun ⟨j, nid, now + j.duration⟩ run) := by
            simp [placeJobs, hf]
          have hadm : nodeAdmits reg j nid = true := List.find?_some hf
          have hnew : j.id ∉ run.map fun e => e.job.id := by
            have := (List.nodup_cons.mp hnodup').1
            intro hc
            exact this (List.mem_append.mpr (Or.inr hc))
          have hinv' :=
            regInv_admit_step reg run j nid (now + j.duration) h hadm hnew
          have hrp : ((insertRun ⟨j, nid, now + j.duration⟩ run).map
                fun e => e.job.id).Perm
              (j.id :: run.map fun e => e.job.id) :=
            (insertRun_perm _ run).map _
          have hnodup2 : ((rest.map Job.id)
              ++ ((insertRun ⟨j, nid, now + j.duration⟩ run).map
                fun e => e.job.id)).Nodup := by
            have hp : ((rest.map Job.id)
                ++ ((insertRun ⟨j, nid, now + j.duration⟩ run).map
                  fun e => e.job.id)).Perm
                (j.id :: ((rest.map Job.id)
                  ++ (run.map fun e => e.job.id))) := by
              refine List.Perm.trans (hrp.append_left _) ?_
              exact List.perm_middle
            rw [hp.nodup_iff]
            exact hnodup'
          obtain ⟨hinv2, hperm2⟩ := ih _ _ hinv' hnodup2
          rw [hstep]
          refine ⟨hinv2, ?_⟩
          refine hperm2.trans ?_
          refine List.Perm.trans (hrp.append_left _) ?_
          refine List.Perm.trans List.perm_middle ?_
          simp
      | none =>
          have hstep : placeJobs now (j :: rest) reg run
              = ((placeJobs now rest reg run).1,
                 (placeJobs now rest reg run).2.1,
                 j :: (placeJobs now rest reg run).2.2) := by
            simp [placeJobs, hf]
          have hnodup2 :
              ((rest.map Job.id) ++ (run.map fun e => e.job.id)).Nodup :=
            (List.nodup_cons.mp hnodup').2
          obtain ⟨hinv2, hperm2⟩ := ih _ _ h hnodup2
          rw [hstep]
          refine ⟨hinv2, ?_⟩
          simp only [List.map_cons, List.cons_append]
          refine List.Perm.trans (hperm2.cons j.id) ?_
          simp

/-- Shuffling a nodup list of id blocks: dropping the released block and
moving the arrived block from the factory into the queue keeps the rest
nodup. -/
lemma nodup_rearrange {α : Type} [DecidableEq α] (A F1 Q D Rt : List α)
    (h : (((A ++ F1) ++ Q) ++ (D ++ Rt)).Nodup) :
    ((Q ++ A) ++ Rt).Nodup ∧
    (∀ X : List α, X.Perm ((Q ++ A) ++ Rt) → (F1 ++ X).Nodup) := by
  have key : (((A ++ F1) ++ Q) ++ (D ++ Rt)).Perm
      (D ++ (F1 ++ ((Q ++ A) ++ Rt))) := by
    rw [List.perm_iff_count]
    intro a
    simp only [List.count_append]
    omega
  have h2 : (D ++ (F1 ++ ((Q ++ A) ++ Rt))).Nodup := key.nodup_iff.mp h
  have h3 : (F1 ++ ((Q ++ A) ++ Rt)).Nodup := h2.of_append_right
  refine ⟨h3.of_append_right, ?_⟩
  intro X hX
  have : (F1 ++ X).Perm (F1 ++ ((Q ++ A) ++ Rt)) := hX.append_left F1
  exact this.nodup_iff.mpr h3

/-- The three phases of a tick preserve scheduler well-formedness, whatever
time the clock advanced to. -/
lemma schedInv_tickAt (s : Scheduler) (now' : Nat) (h : SchedInv s) :
    SchedInv (s.tickAt now') := by
  obtain ⟨hreg, hids⟩ := h
  have hsplit_run : s.jobs_running.takeWhile (fun e => e.release_at ≤ now')
      ++ s.jobs_running.dropWhile (fun e => e.release_at ≤ now')
      = s.jobs_running := List.takeWhile_append_dropWhile _ _
  have hsplit_fac : s.factory.takeWhile (fun j => j.arrival ≤ now')
      ++ s.factory.dropWhile (fun j => j.arrival ≤ now')
      = s.factory := List.takeWhile_append_dropWhile _ _
  have hreg' : RegInv s.registry
      (s.jobs_running.takeWhile (fun e => e.release_at ≤ now')
        ++ s.jobs_running.dropWhile (fun e => e.release_at ≤ now')) := by
    rw [hsplit_run]; exact hreg
  have hrel : RegInv
      (s.registry.releaseAll
        (s.jobs_running.takeWhile (fun e => e.release_at ≤ now')))
      (s.jobs_running.dropWhile (fun e => e.release_at ≤ now')) :=
    regInv_releaseAll _ _ _ hreg'
  have hF : s.factory.map Job.id
      = (s.factory.takeWhile (fun j => j.arrival ≤ now')).map Job.id
        ++ (s.factory.dropWhile (fun j => j.arrival ≤ now')).map Job.id := by
    rw [← List.map_append, hsplit_fac]
  have hR : (s.jobs_running.map fun e => e.job.id)
      = ((s.jobs_running.takeWhile (fun e => e.release_at ≤ now')).map
          fun e => e.job.id)
        ++ ((s.jobs_running.dropWhile (fun e => e.release_at ≤ now')).map
          fun e => e.job.id) := by
    rw [← List.map_append, hsplit_run]
  rw [hF, hR] at hids
  obtain ⟨hnd1, hnd2⟩ := nodup_rearrange _ _ _ _ _ hids
  have hplace := placeJobs_regInv now'
    (s.jobs_queuing ++ s.factory.takeWhile (fun j => j.arrival ≤ now'))
    (s.registry.releaseAll
      (s.jobs_running.takeWhile (fun e => e.release_at ≤ now')))
    (s.jobs_running.dropWhile (fun e => e.release_at ≤ now'))
    hrel (by rw [List.map_append]; exact hnd1)
  obtain ⟨hinv2, hperm2⟩ := hplace
  constructor
  · exact hinv2
  · have hx : (((placeJobs now'
          (s.jobs_queuing ++ s.factory.takeWhile (fun j => j.arrival ≤ now'))
          (s.registry.releaseAll
            (s.jobs_running.takeWhile (fun e => e.release_at ≤ now')))
          (s.jobs_running.dropWhile
            (fun e => e.release_at ≤ now'))).2.2.map Job.id)
        ++ ((placeJobs now'
          (s.jobs_queuing ++ s.factory.takeWhile (fun j => j.arrival ≤ now'))
          (s.registry.releaseAll
            (s.jobs_running.takeWhile (fun e => e.release_at ≤ now')))
          (s.jobs_running.dropWhile
            (fun e => e.release_at ≤ now'))).2.1.map fun e => e.job.id)).Perm
        ((s.jobs_queuing.map Job.id
            ++ (s.factory.takeWhile (fun j => j.arrival ≤ now')).map Job.id)
          ++ ((s.jobs_running.dropWhile (fun e => e.release_at ≤ now')).map
            fun e => e.job.id)) := by
      rw [← List.map_append]
      exact hperm2
    have target := hnd2 _ hx
    rw [← List.append_assoc] at target
    exact target

/-- A tick preserves scheduler well-formedness. -/
lemma schedInv_tick (s : Scheduler) (h : SchedInv s) : SchedInv s.tick.2 := by
  simp only [Scheduler.tick]
  split
  · exact h
  · exact schedInv_tickAt s _ h

/-- Under the coupling invariant, each node's free resources plus the
requested resources of the jobs in its hosted set equal its capacity. -/
lemma conservation_of_schedInv (s : Scheduler) (h : SchedInv s) :
    ∀ n ∈ s.registry.nodes,
      n.free.add (resSum (n.hosted.map (requestedOf s.jobs_running)))
        = n.capacity := by
  obtain ⟨⟨hnodes, hrun, hex, hperm, hcons⟩, _⟩ := h
  intro n hn
  have h1 : (n.hosted.map (requestedOf s.jobs_running)).Perm
      (((runningOn s.jobs_running n.id).map fun e => e.job.id).map
        (requestedOf s.jobs_running)) :=
    (hperm n hn).map _
  have h2 : ((runningOn s.jobs_running n.id).map fun e => e.job.id).map
        (requestedOf s.jobs_running)
      = (runningOn s.jobs_running n.id).map fun e => e.job.requested := by
    rw [List.map_map]
    refine List.map_congr_left ?_
    intro e he
    have he' : e ∈ s.jobs_running := List.mem_of_mem_filter he
    show requestedOf s.jobs_running e.job.id = e.job.requested
    unfold requestedOf
    rw [find?_jid_eq_self s.jobs_running hrun e he']
  rw [resSum_perm h1, h2]
  exact hcons n hn

/-- The invariant holds for a freshly constructed scheduler over a registry
with distinct node ids, fully free nodes, and a duplicate-free job stream. -/
lemma schedInv_new (reg : NodeRegistry) (jobs : List Job)
    (hnd : (reg.nodes.map Node.id).Nodup)
    (hfresh : ∀ n ∈ reg.nodes, n.free = n.capacity ∧ n.hosted = [])
    (hjnd : (jobs.map Job.id).Nodup) :
    SchedInv (Scheduler.new reg jobs) := by
  refine ⟨⟨hnd, by simp [Scheduler.new], by simp [Scheduler.new], ?_, ?_⟩,
    by simpa [Scheduler.new] using hjnd⟩
  · intro n hn
    rw [(hfresh n hn).2]
    simp [Scheduler.new, runningOn]
  · intro n hn
    show n.free.add
        (resSum ((runningOn [] n.id).map fun e => e.job.requested))
      = n.capacity
    simp only [runningOn, List.filter_nil, List.map_nil]
    have : resSum [] = ⟨0, 0⟩ := rfl
    rw [this, Resource.add_zero_right]
    exact (hfresh n hn).1

/-- **C6**: at every tick boundary, every node's free resources plus the sum
of the requested resources of the jobs in its hosted set equal its static
capacity, and this conservation (packaged with the coupling that carries it)
is preserved by every `tick()` call; it holds of every freshly constructed
scheduler over a well-formed registry. -/
theorem C6_conservation (s : Scheduler) (h : SchedInv s) :
    (∀ n ∈ s.registry.nodes,
       n.free.add (resSum (n.hosted.map (requestedOf s.jobs_running)))
         = n.capacity) ∧
    SchedInv s.tick.2 ∧
    (∀ (reg : NodeRegistry) (jobs : List Job),
       (reg.nodes.map Node.id).Nodup →
       (∀ n ∈ reg.nodes, n.free = n.capacity ∧ n.hosted = []) →
       (jobs.map Job.id).Nodup →
       SchedInv (Scheduler.new reg jobs)) :=
  ⟨conservation_of_schedInv s h, schedInv_tick s h, schedInv_new⟩

/-- Witness for C6 on the "trivial fit" fixture, whose invariant is checked
by evaluation. -/
theorem C6_conservation_witness :
    (∀ n ∈ exSched.registry.nodes,
       n.free.add (resSum (n.hosted.map (requestedOf exSched.jobs_running)))
         = n.capacity) ∧
    SchedInv exSched.tick.2 ∧
    (∀ (reg : NodeRegistry) (jobs : List Job),
       (reg.nodes.map Node.id).Nodup →
       (∀ n ∈ reg.nodes, n.free = n.capacity ∧ n.hosted = []) →
       (jobs.map Job.id).Nodup →
       SchedInv (Scheduler.new reg jobs)) :=
  C6_conservation exSched (by decide)

end Dismem
